import Mathlib

/-!
Shallow embedding of the `micromap` fixed-capacity map (src/map.rs,
src/iterators.rs, src/debug.rs) and verification of its specification.

Modelling choices:
* A Rust `Map<K, V, N>` stores `pairs : [MaybeUninit<Option<(K,V)>>; N]`
  and `next : usize` (the high-water mark); only slots with index below
  `next` are initialised.  We model exactly that initialised region:
  `Map.pairs` is the list of the first `next` slots (each `some pair` =
  occupied, `none` = tombstoned) and the high-water mark is its length.
  The uninitialised tail carries no information and is never read by any
  operation, so it is not represented.
* `N` is the field `cap`.
* Rust `==` on keys is modelled by decidable equality.
* Calls to `assume_init_drop` (the places where a stored pair is dropped)
  are made explicit: every mutating operation additionally returns the
  list of pairs it dropped, in the order the drops happen.  A pair moved
  out by `mem::replace` (remove_entry, consuming iteration) is returned
  as a moved-out result, not listed as dropped.
-/

namespace Micromap

variable {K V : Type}

/-- State of a micromap: the initialised slot region (indices below the
high-water mark `next`) and the capacity `N`. -/
structure Map (K V : Type) where
  pairs : List (Option (K × V))
  cap : Nat
deriving DecidableEq

/-- High-water mark `next`: the number of initialised slots. -/
def Map.next (m : Map K V) : Nat := m.pairs.length

/-- Modelled from the spec: `Map::new` lives in the crate root, which is not
among the given source files.  The spec says a container is created empty
with `high_water = 0` and every slot uninitialised. -/
def Map.new (K V : Type) (cap : Nat) : Map K V := ⟨[], cap⟩

/-- Source `Map::capacity` (src/map.rs:30-32): returns `N`. -/
def Map.capacity (m : Map K V) : Nat := m.cap

/-- Source `Map::len` (src/map.rs:44-52): counts the occupied (`is_some`)
slots among indices `0..next`. -/
def Map.len (m : Map K V) : Nat := m.pairs.countP fun o => o.isSome

/-- Source `Map::is_empty` (src/map.rs:37-39). -/
def Map.is_empty (m : Map K V) : Bool := m.len == 0

/-- Loop of `Map::contains_key` (src/map.rs:57-69): scan `0..next`, true at
the first occupied slot whose key equals `k`. -/
def containsGo [DecidableEq K] (k : K) : List (Option (K × V)) → Bool
  | [] => false
  | none :: rest => containsGo k rest
  | some (k', _v) :: rest => if k' = k then true else containsGo k rest

/-- Source `Map::contains_key` (src/map.rs:57-69). -/
def Map.contains_key [DecidableEq K] (m : Map K V) (k : K) : Bool :=
  containsGo k m.pairs

/-- Loop of `Map::get` (src/map.rs:131-143): scan `0..next`, return the
value of the first occupied slot whose key equals `k`. -/
def getGo [DecidableEq K] (k : K) : List (Option (K × V)) → Option V
  | [] => none
  | none :: rest => getGo k rest
  | some (k', v) :: rest => if k' = k then some v else getGo k rest

/-- Source `Map::get` (src/map.rs:131-143). -/
def Map.get [DecidableEq K] (m : Map K V) (k : K) : Option V :=
  getGo k m.pairs

/-- Scan loop of `Map::insert` (src/map.rs:98-121).  Arguments: remaining
slots, index `i` of the first of them, current `target` (initially `next`).
On an occupied slot with matching key it stops, returning that index and
the dropped old pair (`assume_init_drop` at src/map.rs:110-112); on a
tombstone it sets `target` to that index and continues; exhausting the
initialised region it returns the final `target`. -/
def insertScan [DecidableEq K] (k : K) :
    List (Option (K × V)) → Nat → Nat → Nat × List (K × V)
  | [], _i, target => (target, [])
  | none :: rest, i, _target => insertScan k rest (i + 1) i
  | some (k', v') :: rest, i, target =>
      if k' = k then (i, [(k', v')]) else insertScan k rest (i + 1) target

/-- Source `Map::insert` (src/map.rs:97-126).  After the scan the pair is
written at `target`, and `next` is advanced exactly when `target = next`.
The `debug_assert!(target < N)` at src/map.rs:103 fires when a fresh slot
is needed (`target = next`) but `next = N`; we model that checked-build
failure as `none`.  On success returns the new state and the pairs the
operation dropped. -/
def Map.insert [DecidableEq K] (m : Map K V) (k : K) (v : V) :
    Option (Map K V × List (K × V)) :=
  let scan := insertScan k m.pairs 0 m.pairs.length
  if scan.1 = m.pairs.length then
    if m.pairs.length < m.cap then
      some (⟨m.pairs ++ [some (k, v)], m.cap⟩, scan.2)
    else none
  else
    some (⟨m.pairs.set scan.1 (some (k, v)), m.cap⟩, scan.2)

/-- Loop of `Map::remove` (src/map.rs:73-86): at the first occupied slot
with matching key, drop the pair (`assume_init_drop`, src/map.rs:80) and
write `None` (src/map.rs:81), then break. -/
def removeGo [DecidableEq K] (k : K) :
    List (Option (K × V)) → List (Option (K × V)) × List (K × V)
  | [] => ([], [])
  | none :: rest =>
      let r := removeGo k rest
      (none :: r.1, r.2)
  | some (k', v') :: rest =>
      if k' = k then (none :: rest, [(k', v')])
      else
        let r := removeGo k rest
        (some (k', v') :: r.1, r.2)

/-- Source `Map::remove` (src/map.rs:73-86).  Returns the new state and
the dropped pairs. -/
def Map.remove [DecidableEq K] (m : Map K V) (k : K) : Map K V × List (K × V) :=
  let r := removeGo k m.pairs
  (⟨r.1, m.cap⟩, r.2)

/-- Loop of `Map::remove_entry` (src/map.rs:213-228): at the first occupied
slot with matching key, `mem::replace` the slot with `None` and return the
moved-out pair (no drop). -/
def removeEntryGo [DecidableEq K] (k : K) :
    List (Option (K × V)) → List (Option (K × V)) × Option (K × V)
  | [] => ([], none)
  | none :: rest =>
      let r := removeEntryGo k rest
      (none :: r.1, r.2)
  | some (k', v') :: rest =>
      if k' = k then (none :: rest, some (k', v'))
      else
        let r := removeEntryGo k rest
        (some (k', v') :: r.1, r.2)

/-- Source `Map::remove_entry` (src/map.rs:213-228).  Returns the new state
and the moved-out pair, if any. -/
def Map.remove_entry [DecidableEq K] (m : Map K V) (k : K) :
    Map K V × Option (K × V) :=
  let r := removeEntryGo k m.pairs
  (⟨r.1, m.cap⟩, r.2)

/-- Occupied entries of the initialised region, in ascending slot order. -/
def Map.occupiedEntries (m : Map K V) : List (K × V) :=
  m.pairs.filterMap id

/-- Source `Map::clear` (src/map.rs:169-174): drops every initialised slot
in ascending order and resets `next` to `0` (the slots become
uninitialised again).  Returns the new state and the dropped pairs. -/
def Map.clear (m : Map K V) : Map K V × List (K × V) :=
  (⟨[], m.cap⟩, m.occupiedEntries)

/-- Loop of `Map::retain` (src/map.rs:178-186): for each occupied slot in
ascending order, call `f` on the pair; if `f` is false, overwrite the slot
with `None` via `MaybeUninit::write` (src/map.rs:182).  Components of the
result: the new slots, the list of pairs `f` was called on (in call
order), and the dropped pairs.  The loop body contains no
`assume_init_drop` and no `mem::replace`, so the dropped list is built
empty: `MaybeUninit::write` discards the old contents without dropping. -/
def retainGo (f : K → V → Bool) :
    List (Option (K × V)) →
      List (Option (K × V)) × List (K × V) × List (K × V)
  | [] => ([], [], [])
  | none :: rest =>
      let r := retainGo f rest
      (none :: r.1, r.2.1, r.2.2)
  | some (k, v) :: rest =>
      let r := retainGo f rest
      ((if f k v then some (k, v) else none) :: r.1, (k, v) :: r.2.1, r.2.2)

/-- Source `Map::retain` (src/map.rs:178-186).  Returns the new state, the
pairs the predicate was called on (in call order), and the dropped
pairs. -/
def Map.retain (m : Map K V) (f : K → V → Bool) :
    Map K V × List (K × V) × List (K × V) :=
  let r := retainGo f m.pairs
  (⟨r.1, m.cap⟩, r.2.1, r.2.2)

/-- Modelled from the spec: the crate root's `Drop` impl is not among the
given source files.  The spec says destruction of the container drops
every occupied slot in the initialised region and leaves the
uninitialised tail untouched.  Returns the dropped pairs. -/
def Map.dropContainer (m : Map K V) : List (K × V) :=
  m.occupiedEntries

/-- Well-formedness: invariant I1 (the high-water mark is at most `N`) and
invariant I4 (occupied keys are pairwise distinct). -/
def Map.Wf (m : Map K V) : Prop :=
  m.pairs.length ≤ m.cap ∧ (m.occupiedEntries.map Prod.fst).Nodup

instance [DecidableEq K] (m : Map K V) : Decidable m.Wf := by
  unfold Map.Wf; infer_instance

/-- Operations a client can perform, for stating invariant preservation
over arbitrary operation sequences. -/
inductive Op (K V : Type) where
  | insert (k : K) (v : V)
  | remove (k : K)
  | removeEntry (k : K)
  | clear
  | retain (f : K → V → Bool)

/-- Apply one operation.  An insert that hits the capacity-exhausted
failure aborts the run, leaving the state unchanged. -/
def applyOp [DecidableEq K] (m : Map K V) : Op K V → Map K V
  | .insert k v =>
      match m.insert k v with
      | some r => r.1
      | none => m
  | .remove k => (m.remove k).1
  | .removeEntry k => (m.remove_entry k).1
  | .clear => m.clear.1
  | .retain f => (m.retain f).1

/-- Apply a sequence of operations, left to right. -/
def applyOps [DecidableEq K] (m : Map K V) (ops : List (Op K V)) : Map K V :=
  ops.foldl applyOp m

/-- State of the borrowing iterator `Iter` (src/iterators.rs:29-35): the
bound `next` captured at creation, the cursor `pos`, and the borrowed
slots. -/
structure Iter (K V : Type) where
  next : Nat
  pos : Nat
  pairs : List (Option (K × V))

/-- Source `Map::iter` (src/iterators.rs:29-35). -/
def Map.iter (m : Map K V) : Iter K V :=
  ⟨m.next, 0, m.pairs⟩

/-- Body of `Iter::next`, with the while loop's variant `next - pos` made
an explicit fuel argument so the recursion is structural. -/
def Iter.stepGo : Nat → Iter K V → Option ((K × V) × Iter K V)
  | 0, _ => none
  | fuel + 1, it =>
      if it.pos < it.next then
        match it.pairs.get? it.pos with
        | some (some p) => some (p, ⟨it.next, it.pos + 1, it.pairs⟩)
        | _ => Iter.stepGo fuel ⟨it.next, it.pos + 1, it.pairs⟩
      else none

/-- Source `Iter::next` (src/iterators.rs:53-62): while `pos < next`, read
slot `pos` and advance; yield the first occupied slot found, else stop. -/
def Iter.step (it : Iter K V) : Option ((K × V) × Iter K V) :=
  Iter.stepGo (it.next - it.pos) it

/-- State of the mutably-borrowing iterator `IterMut`
(src/iterators.rs:39-45): the bound `next`, the cursor `pos`, and the
remaining suffix of the underlying slice iterator. -/
structure IterMut (K V : Type) where
  next : Nat
  pos : Nat
  rest : List (Option (K × V))

/-- Source `Map::iter_mut` (src/iterators.rs:39-45). -/
def Map.iter_mut (m : Map K V) : IterMut K V :=
  ⟨m.next, 0, m.pairs⟩

/-- Body of `IterMut::next`, with the while loop's variant `next - pos`
made an explicit fuel argument so the recursion is structural. -/
def IterMut.stepGo : Nat → IterMut K V → Option ((K × V) × IterMut K V)
  | 0, _ => none
  | fuel + 1, it =>
      if it.pos < it.next then
        match it.rest with
        | [] => none
        | some p :: rest => some (p, ⟨it.next, it.pos + 1, rest⟩)
        | none :: rest => IterMut.stepGo fuel ⟨it.next, it.pos + 1, rest⟩
      else none

/-- Source `IterMut::next` (src/iterators.rs:69-78): while `pos < next`,
take the slice iterator's next slot (its `unwrap` can only fail past the
end of the slice, modelled as stopping) and advance `pos`; yield the
first occupied slot found. -/
def IterMut.step (it : IterMut K V) : Option ((K × V) × IterMut K V) :=
  IterMut.stepGo (it.next - it.pos) it

/-- State of the consuming iterator `IntoIter` (src/iterators.rs:128): the
cursor `pos` and the owned map. -/
structure IntoIter (K V : Type) where
  pos : Nat
  map : Map K V

/-- Source `IntoIterator::into_iter` for `Map` (src/iterators.rs:127-129). -/
def Map.into_iter (m : Map K V) : IntoIter K V :=
  ⟨0, m⟩

/-- Body of `IntoIter::next`, with the while loop's variant
`map.next - pos` made an explicit fuel argument so the recursion is
structural. -/
def IntoIter.stepGo : Nat → IntoIter K V → Option ((K × V) × IntoIter K V)
  | 0, _ => none
  | fuel + 1, it =>
      if it.pos < it.map.next then
        match it.map.pairs.get? it.pos with
        | some (some p) =>
            some (p, ⟨it.pos + 1, ⟨it.map.pairs.set it.pos none, it.map.cap⟩⟩)
        | _ => IntoIter.stepGo fuel ⟨it.pos + 1, it.map⟩
      else none

/-- Source `IntoIter::next` (src/iterators.rs:86-97): while
`pos < map.next`, inspect slot `pos` and advance; at the first occupied
slot, `mem::replace` it with `None` and yield the moved-out pair (no
drop). -/
def IntoIter.step (it : IntoIter K V) : Option ((K × V) × IntoIter K V) :=
  IntoIter.stepGo (it.map.next - it.pos) it

/-- Drive a borrowing iterator to exhaustion, collecting its yields;
`fuel` bounds the number of yields. -/
def drainIter (fuel : Nat) (it : Iter K V) : List (K × V) :=
  match fuel with
  | 0 => []
  | fuel + 1 =>
      match it.step with
      | none => []
      | some (p, it') => p :: drainIter fuel it'

/-- Drive a mutably-borrowing iterator to exhaustion. -/
def drainIterMut (fuel : Nat) (it : IterMut K V) : List (K × V) :=
  match fuel with
  | 0 => []
  | fuel + 1 =>
      match it.step with
      | none => []
      | some (p, it') => p :: drainIterMut fuel it'

/-- Drive a consuming iterator to exhaustion. -/
def drainIntoIter (fuel : Nat) (it : IntoIter K V) : List (K × V) :=
  match fuel with
  | 0 => []
  | fuel + 1 =>
      match it.step with
      | none => []
      | some (p, it') => p :: drainIntoIter fuel it'

/-- Everything `m.iter()` yields, in order. -/
def Map.iterToList (m : Map K V) : List (K × V) :=
  drainIter m.next m.iter

/-- Everything `m.iter_mut()` yields, in order. -/
def Map.iterMutToList (m : Map K V) : List (K × V) :=
  drainIterMut m.next m.iter_mut

/-- Everything `m.into_iter()` yields, in order. -/
def Map.intoIterToList (m : Map K V) : List (K × V) :=
  drainIntoIter m.next m.into_iter

/-- Source `Debug::fmt` (src/debug.rs:31-39): render each pair yielded by
`self.iter()` as "key: value", join with ", ", and wrap in braces.  The
arguments `fK`, `fV` are the `Display` renderings of the key and value
types. -/
def Map.debugFmt (fK : K → String) (fV : V → String) (m : Map K V) : String :=
  let parts := m.iterToList.map fun p => fK p.1 ++ ": " ++ fV p.2
  "\x7b" ++ String.intercalate ", " parts ++ "\x7d"

/-- Source `Display::fmt` (src/debug.rs:25-29): delegates to `Debug::fmt`. -/
def Map.displayFmt (fK : K → String) (fV : V → String) (m : Map K V) : String :=
  m.debugFmt fK fV

/-- Bulk construction from a sequence of pairs.  Modelled from the spec:
the crate root's `FromIterator` impl is not among the given source files;
the spec's §6 says bulk construction repeatedly applies `insert` in
sequence order and fails the same way `insert` fails. -/
def insertAll [DecidableEq K] (m : Map K V) : List (K × V) → Option (Map K V)
  | [] => some m
  | (k, v) :: rest =>
      match m.insert k v with
      | some r => insertAll r.1 rest
      | none => none

/-- Effect of one retain step on one slot: occupied entries that pass the
predicate stay, occupied entries that fail become tombstones, tombstones
stay (analysis helper). -/
def retainSlot (f : K → V → Bool) : Option (K × V) → Option (K × V)
  | some (k, v) => if f k v then some (k, v) else none
  | none => none

/-- Index of the last tombstone of a slot region, if there is one
(analysis helper, not source). -/
def lastNone : List (Option (K × V)) → Option Nat
  | [] => none
  | none :: rest => some ((Option.map (· + 1) (lastNone rest)).getD 0)
  | some _ :: rest => Option.map (· + 1) (lastNone rest)

section ListLemmas

theorem length_filterMap_id (l : List (Option (K × V))) :
    (l.filterMap id).length = l.countP fun o => o.isSome := by
  induction l with
  | nil => rfl
  | cons h t ih => cases h <;> simp [List.countP_cons, ih]

theorem occupiedEntries_length (m : Map K V) :
    m.occupiedEntries.length = m.len :=
  length_filterMap_id m.pairs

theorem len_le_next (m : Map K V) : m.len ≤ m.next :=
  List.countP_le_length _

theorem containsGo_eq_false_iff [DecidableEq K] (k : K)
    (l : List (Option (K × V))) :
    containsGo k l = false ↔ ∀ q ∈ l.filterMap id, q.1 ≠ k := by
  induction l with
  | nil => simp [containsGo]
  | cons h t ih =>
      cases h with
      | none => simpa [containsGo, List.filterMap_cons] using ih
      | some p =>
          by_cases hp : p.1 = k <;>
            simp [containsGo, List.filterMap_cons, hp, ih]

theorem getGo_eq_none_iff [DecidableEq K] (k : K)
    (l : List (Option (K × V))) :
    getGo k l = none ↔ ∀ q ∈ l.filterMap id, q.1 ≠ k := by
  induction l with
  | nil => simp [getGo]
  | cons h t ih =>
      cases h with
      | none => simpa [getGo, List.filterMap_cons] using ih
      | some p =>
          by_cases hp : p.1 = k <;>
            simp [getGo, List.filterMap_cons, hp, ih]

theorem lastNone_get [DecidableEq K] (l : List (Option (K × V))) (j : Nat)
    (h : lastNone l = some j) : l[j]? = some none := by
  induction l generalizing j with
  | nil => simp [lastNone] at h
  | cons hd t ih =>
      cases hd with
      | none =>
          simp only [lastNone] at h
          cases ht : lastNone t with
          | none => simp [ht] at h; subst h; simp
          | some j' =>
              simp [ht] at h
              subst h
              simpa using ih j' ht
      | some p =>
          simp only [lastNone] at h
          cases ht : lastNone t with
          | none => simp [ht] at h
          | some j' =>
              simp [ht] at h
              subst h
              simpa using ih j' ht

theorem lastNone_eq_none [DecidableEq K] (l : List (Option (K × V)))
    (h : lastNone l = none) : (none : Option (K × V)) ∉ l := by
  induction l with
  | nil => simp
  | cons hd t ih =>
      cases hd with
      | none => simp [lastNone] at h
      | some p =>
          simp only [lastNone] at h
          intro hm
          rcases List.mem_cons.mp hm with hm | hm
          · simp at hm
          · exact ih (by cases ht : lastNone t <;> simp [ht] at h ⊢) hm

theorem lastNone_last [DecidableEq K] (l : List (Option (K × V))) (j : Nat)
    (h : lastNone l = some j) :
    ∀ i, j < i → l[i]? ≠ some none := by
  induction l generalizing j with
  | nil => intro i _ hc; simp at hc
  | cons hd t ih =>
      intro i hj hc
      cases hd with
      | none =>
          simp only [lastNone] at h
          cases ht : lastNone t with
          | none =>
              simp [ht] at h
              subst h
              obtain ⟨i', rfl⟩ : ∃ i', i = i' + 1 :=
                ⟨i - 1, by omega⟩
              simp only [List.getElem?_cons_succ] at hc
              exact lastNone_eq_none t ht (List.getElem?_mem hc)
          | some j' =>
              simp [ht] at h
              subst h
              cases i with
              | zero => omega
              | succ i' =>
                  simp only [List.getElem?_cons_succ] at hc
                  exact ih j' ht i' (by omega) hc
      | some p =>
          simp only [lastNone] at h
          cases ht : lastNone t with
          | none => simp [ht] at h
          | some j' =>
              simp [ht] at h
              subst h
              cases i with
              | zero => simp at hc
              | succ i' =>
                  simp only [List.getElem?_cons_succ] at hc
                  exact ih j' ht i' (by omega) hc

theorem lastNone_isSome_of_mem [DecidableEq K] (l : List (Option (K × V)))
    (h : (none : Option (K × V)) ∈ l) : (lastNone l).isSome := by
  induction l with
  | nil => simp at h
  | cons hd t ih =>
      cases hd with
      | none =>
          simp only [lastNone]
          cases lastNone t <;> simp
      | some p =>
          simp only [List.mem_cons] at h
          rcases h with h | h
          · simp at h
          · have := ih h
            simp only [lastNone]
            cases ht : lastNone t <;> simp_all

theorem lastNone_lt_length [DecidableEq K] (l : List (Option (K × V)))
    (j : Nat) (h : lastNone l = some j) : j < l.length := by
  have hg := lastNone_get (K := K) (V := V) l j h
  by_contra hc
  rw [List.getElem?_eq_none (by omega)] at hg
  simp at hg

end ListLemmas

section ScanLemmas

variable [DecidableEq K]

theorem insertScan_no_match_no_tomb (k : K) (l : List (Option (K × V)))
    (hm : containsGo k l = false) (ht : lastNone l = none) :
    ∀ i t, insertScan k l i t = (t, []) := by
  induction l with
  | nil => intro i t; rfl
  | cons hd rest ih =>
      intro i t
      cases hd with
      | none =>
          exfalso
          simp only [lastNone] at ht
          cases lastNone rest <;> simp at ht
      | some p =>
          simp only [containsGo] at hm
          by_cases hp : p.1 = k
          · simp [hp] at hm
          · simp only [lastNone] at ht
            have ht' : lastNone rest = none := by
              cases h2 : lastNone rest <;> simp [h2] at ht ⊢
            simp only [insertScan, hp, if_false]
            exact ih (by simpa [hp] using hm) ht' _ _

theorem insertScan_no_match_tomb (k : K) (l : List (Option (K × V)))
    (j : Nat) (hm : containsGo k l = false) (ht : lastNone l = some j) :
    ∀ i t, insertScan k l i t = (i + j, []) := by
  induction l generalizing j with
  | nil => simp [lastNone] at ht
  | cons hd rest ih =>
      intro i t
      cases hd with
      | none =>
          simp only [containsGo] at hm
          simp only [lastNone] at ht
          cases h2 : lastNone rest with
          | none =>
              simp [h2] at ht
              subst ht
              simpa using insertScan_no_match_no_tomb k rest hm h2 (i + 1) i
          | some j' =>
              simp [h2] at ht
              subst ht
              have h := ih j' hm h2 (i + 1) i
              simp only [insertScan]
              rw [h]
              congr 1
              omega
      | some p =>
          simp only [containsGo] at hm
          by_cases hp : p.1 = k
          · simp [hp] at hm
          · simp only [lastNone] at ht
            cases h2 : lastNone rest with
            | none => simp [h2] at ht
            | some j' =>
                simp [h2] at ht
                subst ht
                simp only [insertScan, if_neg hp]
                have h := ih j' (by simpa [hp] using hm) h2 (i + 1) t
                rw [h]
                congr 1
                omega

theorem insertScan_match_lt (k : K) (l : List (Option (K × V)))
    (hm : containsGo k l = true) :
    ∀ i t, (insertScan k l i t).1 < i + l.length := by
  induction l with
  | nil => simp [containsGo] at hm
  | cons hd rest ih =>
      intro i t
      cases hd with
      | none =>
          simp only [containsGo] at hm
          simp only [insertScan]
          have := ih hm (i + 1) i
          simp only [List.length_cons]
          omega
      | some p =>
          simp only [containsGo] at hm
          by_cases hp : p.1 = k
          · simp only [insertScan, if_pos hp, List.length_cons]
            omega
          · simp only [insertScan, if_neg hp, List.length_cons]
            have := ih (by simpa [hp] using hm) (i + 1) t
            omega

theorem insertScan_dup (k : K) (v0 : V) (l : List (Option (K × V)))
    (n : Nat) (hd : ((l.filterMap id).map Prod.fst).Nodup)
    (hn : l[n]? = some (some (k, v0))) :
    ∀ i t, insertScan k l i t = (i + n, [(k, v0)]) := by
  induction l generalizing n with
  | nil => simp at hn
  | cons hd0 rest ih =>
      intro i t
      cases n with
      | zero =>
          simp only [List.getElem?_cons_zero, Option.some_inj] at hn
          subst hn
          simp [insertScan]
      | succ n' =>
          simp only [List.getElem?_cons_succ] at hn
          cases hd0 with
          | none =>
              simp only [List.filterMap_cons, id_eq] at hd
              have h := ih n' hd hn (i + 1) i
              simp only [insertScan]
              rw [h]
              congr 1
              omega
          | some p =>
              simp only [List.filterMap_cons, id_eq, List.map_cons,
                List.nodup_cons] at hd
              have hkmem : k ∈ (rest.filterMap id).map Prod.fst := by
                refine List.mem_map.mpr ⟨(k, v0), ?_, rfl⟩
                exact List.mem_filterMap.mpr
                  ⟨some (k, v0), List.getElem?_mem hn, rfl⟩
              have hp : p.1 ≠ k := fun he => hd.1 (he ▸ hkmem)
              have h := ih n' hd.2 hn (i + 1) t
              simp only [insertScan, if_neg hp]
              rw [h]
              congr 1
              omega

end ScanLemmas

section InsertLemmas

variable [DecidableEq K]

theorem lastNone_eq_none_iff (l : List (Option (K × V))) :
    lastNone l = none ↔ (none : Option (K × V)) ∉ l := by
  constructor
  · exact lastNone_eq_none l
  · intro h
    cases hl : lastNone l with
    | none => rfl
    | some j =>
        exact absurd (List.getElem?_mem (lastNone_get l j hl)) h

theorem countP_set_some (l : List (Option (K × V))) (i : Nat) (a b : K × V)
    (h : l[i]? = some (some a)) :
    ((l.set i (some b)).countP fun o => o.isSome) =
      l.countP fun o => o.isSome := by
  induction l generalizing i with
  | nil => simp at h
  | cons hd t ih =>
      cases i with
      | zero =>
          simp only [List.getElem?_cons_zero, Option.some_inj] at h
          subst h
          simp [List.countP_cons]
      | succ i' =>
          simp only [List.getElem?_cons_succ] at h
          simp [List.countP_cons, ih i' h]

theorem getGo_set_dup (l : List (Option (K × V))) (i : Nat) (k : K)
    (v v0 : V) (hd : ((l.filterMap id).map Prod.fst).Nodup)
    (h : l[i]? = some (some (k, v0))) :
    getGo k (l.set i (some (k, v))) = some v := by
  induction l generalizing i with
  | nil => simp at h
  | cons hd0 t ih =>
      cases i with
      | zero =>
          simp only [List.getElem?_cons_zero, Option.some_inj] at h
          subst h
          simp [getGo]
      | succ i' =>
          simp only [List.getElem?_cons_succ] at h
          cases hd0 with
          | none =>
              simp only [List.filterMap_cons, id_eq] at hd
              simpa [getGo] using ih i' hd h
          | some p =>
              simp only [List.filterMap_cons, id_eq, List.map_cons,
                List.nodup_cons] at hd
              have hkmem : k ∈ (t.filterMap id).map Prod.fst := by
                refine List.mem_map.mpr ⟨(k, v0), ?_, rfl⟩
                exact List.mem_filterMap.mpr
                  ⟨some (k, v0), List.getElem?_mem h, rfl⟩
              have hp : p.1 ≠ k := fun he => hd.1 (he ▸ hkmem)
              simpa [getGo, hp] using ih i' hd.2 h

theorem insert_branch_append (m : Map K V) (k : K) (v : V)
    (d : List (K × V))
    (hscan : insertScan k m.pairs 0 m.pairs.length = (m.pairs.length, d))
    (hcap : m.pairs.length < m.cap) :
    m.insert k v = some (⟨m.pairs ++ [some (k, v)], m.cap⟩, d) := by
  simp [Map.insert, hscan, hcap]

theorem insert_branch_fail (m : Map K V) (k : K) (v : V)
    (d : List (K × V))
    (hscan : insertScan k m.pairs 0 m.pairs.length = (m.pairs.length, d))
    (hcap : ¬m.pairs.length < m.cap) :
    m.insert k v = none := by
  simp [Map.insert, hscan, hcap]

theorem insert_branch_set (m : Map K V) (k : K) (v : V)
    (t0 : Nat) (d : List (K × V))
    (hscan : insertScan k m.pairs 0 m.pairs.length = (t0, d))
    (ht : t0 ≠ m.pairs.length) :
    m.insert k v = some (⟨m.pairs.set t0 (some (k, v)), m.cap⟩, d) := by
  simp [Map.insert, hscan, ht]

end InsertLemmas

section IterLemmas

theorem iter_stepGo_char (pairs : List (Option (K × V))) :
    ∀ fuel pos, pairs.length - pos ≤ fuel →
      (Iter.stepGo fuel ⟨pairs.length, pos, pairs⟩ = none ∧
        (pairs.drop pos).filterMap id = []) ∨
      (∃ p pos', Iter.stepGo fuel ⟨pairs.length, pos, pairs⟩ =
          some (p, ⟨pairs.length, pos', pairs⟩) ∧
        (pairs.drop pos).filterMap id =
          p :: (pairs.drop pos').filterMap id) := by
  intro fuel
  induction fuel with
  | zero =>
      intro pos h
      left
      refine ⟨rfl, ?_⟩
      rw [List.drop_eq_nil_of_le (by omega)]
      rfl
  | succ f ih =>
      intro pos h
      by_cases hp : pos < pairs.length
      · have hget : pairs.get? pos = some pairs[pos] := by
          rw [List.get?_eq_getElem?, List.getElem?_eq_getElem hp]
        cases hx : pairs[pos] with
        | some p =>
            right
            refine ⟨p, pos + 1, ?_, ?_⟩
            · simp only [Iter.stepGo, hp, if_true, hget, hx]
            · rw [List.drop_eq_getElem_cons hp, hx]
              simp [List.filterMap_cons]
        | none =>
            have hstep : Iter.stepGo (f + 1) ⟨pairs.length, pos, pairs⟩ =
                Iter.stepGo f ⟨pairs.length, pos + 1, pairs⟩ := by
              simp only [Iter.stepGo, hp, if_true, hget, hx]
            have hfm : (pairs.drop pos).filterMap id =
                (pairs.drop (pos + 1)).filterMap id := by
              rw [List.drop_eq_getElem_cons hp, hx]
              simp [List.filterMap_cons]
            rcases ih (pos + 1) (by omega) with ⟨h1, h2⟩ | ⟨p, pos', h1, h2⟩
            · left
              exact ⟨by rw [hstep, h1], by rw [hfm, h2]⟩
            · right
              exact ⟨p, pos', by rw [hstep, h1], by rw [hfm, h2]⟩
      · left
        refine ⟨?_, ?_⟩
        · simp only [Iter.stepGo, hp, if_false]
        · rw [List.drop_eq_nil_of_le (by omega)]
          rfl

theorem iter_step_char (pairs : List (Option (K × V))) (pos : Nat) :
    (Iter.step ⟨pairs.length, pos, pairs⟩ = none ∧
      (pairs.drop pos).filterMap id = []) ∨
    (∃ p pos', Iter.step ⟨pairs.length, pos, pairs⟩ =
        some (p, ⟨pairs.length, pos', pairs⟩) ∧
      (pairs.drop pos).filterMap id =
        p :: (pairs.drop pos').filterMap id) :=
  iter_stepGo_char pairs (pairs.length - pos) pos (Nat.le_refl _)

theorem drainIter_eq (pairs : List (Option (K × V))) :
    ∀ (out : List (K × V)) fuel pos,
      (pairs.drop pos).filterMap id = out → out.length ≤ fuel →
      drainIter fuel ⟨pairs.length, pos, pairs⟩ = out := by
  intro out
  induction out with
  | nil =>
      intro fuel pos h _
      rcases iter_step_char pairs pos with ⟨hs, _⟩ | ⟨p, pos', hs, hfm⟩
      · cases fuel with
        | zero => rfl
        | succ f => simp [drainIter, hs]
      · rw [h] at hfm
        simp at hfm
  | cons p ps ih =>
      intro fuel pos h hf
      rcases iter_step_char pairs pos with ⟨hs, hfm⟩ | ⟨q, pos', hs, hfm⟩
      · rw [h] at hfm
        simp at hfm
      · rw [h] at hfm
        injection hfm with h1 h2
        cases fuel with
        | zero => simp at hf
        | succ f =>
            simp only [drainIter, hs]
            rw [h1, ih f pos' h2.symm (by simpa using hf)]

theorem iterToList_eq (m : Map K V) : m.iterToList = m.occupiedEntries :=
  drainIter_eq m.pairs (m.pairs.filterMap id) m.next 0 (by simp)
    (le_trans (List.length_filterMap_le id m.pairs) (Nat.le_refl _))

theorem iterMut_stepGo_char (next : Nat) :
    ∀ (rest : List (Option (K × V))) fuel pos,
      rest.length + pos = next → rest.length ≤ fuel →
      (IterMut.stepGo fuel ⟨next, pos, rest⟩ = none ∧
        rest.filterMap id = []) ∨
      (∃ p pos' rest', IterMut.stepGo fuel ⟨next, pos, rest⟩ =
          some (p, ⟨next, pos', rest'⟩) ∧
        rest.filterMap id = p :: rest'.filterMap id ∧
        rest'.length + pos' = next) := by
  intro rest
  induction rest with
  | nil =>
      intro fuel pos hinv _
      left
      refine ⟨?_, rfl⟩
      cases fuel with
      | zero => rfl
      | succ f =>
          simp only [IterMut.stepGo]
          rw [if_neg (by simp at hinv; omega)]
  | cons x rest ih =>
      intro fuel pos hinv hf
      simp only [List.length_cons] at hinv hf
      have hp : pos < next := by omega
      obtain ⟨f, rfl⟩ : ∃ f, fuel = f + 1 := ⟨fuel - 1, by omega⟩
      cases x with
      | some p =>
          right
          exact ⟨p, pos + 1, rest, by simp [IterMut.stepGo, hp],
            by simp [List.filterMap_cons], by omega⟩
      | none =>
          have hstep : IterMut.stepGo (f + 1) ⟨next, pos, none :: rest⟩ =
              IterMut.stepGo f ⟨next, pos + 1, rest⟩ := by
            simp [IterMut.stepGo, hp]
          rcases ih f (pos + 1) (by omega) (by omega) with
            ⟨h1, h2⟩ | ⟨p, pos', rest', h1, h2, h3⟩
          · left
            exact ⟨by rw [hstep, h1], by simpa [List.filterMap_cons] using h2⟩
          · right
            exact ⟨p, pos', rest', by rw [hstep, h1],
              by simpa [List.filterMap_cons] using h2, h3⟩

theorem iterMut_step_char (next : Nat) (rest : List (Option (K × V)))
    (pos : Nat) (hinv : rest.length + pos = next) :
    (IterMut.step ⟨next, pos, rest⟩ = none ∧ rest.filterMap id = []) ∨
    (∃ p pos' rest', IterMut.step ⟨next, pos, rest⟩ =
        some (p, ⟨next, pos', rest'⟩) ∧
      rest.filterMap id = p :: rest'.filterMap id ∧
      rest'.length + pos' = next) :=
  iterMut_stepGo_char next rest (next - pos) pos hinv (by omega)

theorem drainIterMut_eq (next : Nat) :
    ∀ (out : List (K × V)) fuel pos (rest : List (Option (K × V))),
      rest.length + pos = next → rest.filterMap id = out →
      out.length ≤ fuel →
      drainIterMut fuel ⟨next, pos, rest⟩ = out := by
  intro out
  induction out with
  | nil =>
      intro fuel pos rest hinv h _
      rcases iterMut_step_char next rest pos hinv with
        ⟨hs, _⟩ | ⟨p, pos', rest', hs, hfm, _⟩
      · cases fuel with
        | zero => rfl
        | succ f => simp [drainIterMut, hs]
      · rw [h] at hfm
        simp at hfm
  | cons p ps ih =>
      intro fuel pos rest hinv h hf
      rcases iterMut_step_char next rest pos hinv with
        ⟨hs, hfm⟩ | ⟨q, pos', rest', hs, hfm, hinv'⟩
      · rw [h] at hfm
        simp at hfm
      · rw [h] at hfm
        injection hfm with h1 h2
        cases fuel with
        | zero => simp at hf
        | succ f =>
            simp only [drainIterMut, hs]
            rw [h1, ih f pos' rest' hinv' h2.symm (by simpa using hf)]

theorem iterMutToList_eq (m : Map K V) :
    m.iterMutToList = m.occupiedEntries :=
  drainIterMut_eq m.next (m.pairs.filterMap id) m.next 0 m.pairs
    (by simp [Map.next]) rfl
    (le_trans (List.length_filterMap_le id m.pairs) (Nat.le_refl _))

theorem intoIter_stepGo_char :
    ∀ fuel pos (mp : Map K V), mp.pairs.length - pos ≤ fuel →
      (IntoIter.stepGo fuel ⟨pos, mp⟩ = none ∧
        (mp.pairs.drop pos).filterMap id = []) ∨
      (∃ p pos' mp', IntoIter.stepGo fuel ⟨pos, mp⟩ =
          some (p, ⟨pos', mp'⟩) ∧
        (mp.pairs.drop pos).filterMap id =
          p :: (mp'.pairs.drop pos').filterMap id ∧
        mp'.pairs.length = mp.pairs.length ∧ mp'.cap = mp.cap) := by
  intro fuel
  induction fuel with
  | zero =>
      intro pos mp h
      left
      refine ⟨rfl, ?_⟩
      rw [List.drop_eq_nil_of_le (by omega)]
      rfl
  | succ f ih =>
      intro pos mp h
      by_cases hp : pos < mp.pairs.length
      · have hget : mp.pairs.get? pos = some mp.pairs[pos] := by
          rw [List.get?_eq_getElem?, List.getElem?_eq_getElem hp]
        cases hx : mp.pairs[pos] with
        | some p =>
            right
            refine ⟨p, pos + 1, ⟨mp.pairs.set pos none, mp.cap⟩, ?_, ?_, ?_, rfl⟩
            · simp only [IntoIter.stepGo, Map.next, hp, if_true, hget, hx]
            · rw [List.drop_eq_getElem_cons hp, hx]
              have hdrop : (mp.pairs.set pos none).drop (pos + 1) =
                  mp.pairs.drop (pos + 1) := by
                rw [List.drop_set]
                simp
              simp [List.filterMap_cons, hdrop]
            · simp [List.length_set]
        | none =>
            have hstep : IntoIter.stepGo (f + 1) ⟨pos, mp⟩ =
                IntoIter.stepGo f ⟨pos + 1, mp⟩ := by
              simp only [IntoIter.stepGo, Map.next, hp, if_true, hget, hx]
            have hfm : (mp.pairs.drop pos).filterMap id =
                (mp.pairs.drop (pos + 1)).filterMap id := by
              rw [List.drop_eq_getElem_cons hp, hx]
              simp [List.filterMap_cons]
            rcases ih (pos + 1) mp (by omega) with
              ⟨h1, h2⟩ | ⟨p, pos', mp', h1, h2, h3, h4⟩
            · left
              exact ⟨by rw [hstep, h1], by rw [hfm, h2]⟩
            · right
              exact ⟨p, pos', mp', by rw [hstep, h1], by rw [hfm, h2], h3, h4⟩
      · left
        refine ⟨?_, ?_⟩
        · simp only [IntoIter.stepGo, Map.next]
          rw [if_neg hp]
        · rw [List.drop_eq_nil_of_le (by omega)]
          rfl

theorem intoIter_step_char (pos : Nat) (mp : Map K V) :
    (IntoIter.step ⟨pos, mp⟩ = none ∧
      (mp.pairs.drop pos).filterMap id = []) ∨
    (∃ p pos' mp', IntoIter.step ⟨pos, mp⟩ = some (p, ⟨pos', mp'⟩) ∧
      (mp.pairs.drop pos).filterMap id =
        p :: (mp'.pairs.drop pos').filterMap id ∧
      mp'.pairs.length = mp.pairs.length ∧ mp'.cap = mp.cap) :=
  intoIter_stepGo_char (mp.pairs.length - pos) pos mp (Nat.le_refl _)

theorem drainIntoIter_eq :
    ∀ (out : List (K × V)) fuel pos (mp : Map K V),
      (mp.pairs.drop pos).filterMap id = out → out.length ≤ fuel →
      drainIntoIter fuel ⟨pos, mp⟩ = out := by
  intro out
  induction out with
  | nil =>
      intro fuel pos mp h _
      rcases intoIter_step_char pos mp with
        ⟨hs, _⟩ | ⟨p, pos', mp', hs, hfm, _, _⟩
      · cases fuel with
        | zero => rfl
        | succ f => simp [drainIntoIter, hs]
      · rw [h] at hfm
        simp at hfm
  | cons p ps ih =>
      intro fuel pos mp h hf
      rcases intoIter_step_char pos mp with
        ⟨hs, hfm⟩ | ⟨q, pos', mp', hs, hfm, _, _⟩
      · rw [h] at hfm
        simp at hfm
      · rw [h] at hfm
        injection hfm with h1 h2
        cases fuel with
        | zero => simp at hf
        | succ f =>
            simp only [drainIntoIter, hs]
            rw [h1, ih f pos' mp' h2.symm (by simpa using hf)]

theorem intoIterToList_eq (m : Map K V) :
    m.intoIterToList = m.occupiedEntries :=
  drainIntoIter_eq (m.pairs.filterMap id) m.next 0 m (by simp)
    (le_trans (List.length_filterMap_le id m.pairs) (Nat.le_refl _))

end IterLemmas

/-- Claim C6: each of the three iterators (borrowing, mutably-borrowing,
consuming) yields exactly the occupied slots' entries in ascending
slot-index order — never a tombstoned or uninitialised slot — and the
number of yielded entries equals len() at iteration start. -/
theorem iterators_yield_occupied (m : Map K V) :
    m.iterToList = m.occupiedEntries ∧
    m.iterMutToList = m.occupiedEntries ∧
    m.intoIterToList = m.occupiedEntries ∧
    m.occupiedEntries.length = m.len :=
  ⟨iterToList_eq m, iterMutToList_eq m, intoIterToList_eq m,
    occupiedEntries_length m⟩

/-- Claim C1, counterexample: in a capacity-3 map reachable by inserting
keys 1 and 2 and removing both, slots 0 and 1 are both tombstoned, key 3
is absent, yet insert(3, 30) writes the pair into slot 1 — slot 0, the
first (lowest-index) tombstone encountered by the scan, is still
tombstoned afterwards.  The scan's `None` arm (src/map.rs:116-118)
overwrites `target` at every tombstone, so the last one wins. -/
theorem insert_skips_first_tombstone :
    applyOps (Map.new Nat Nat 3)
        [Op.insert 1 10, Op.insert 2 20, Op.remove 1, Op.remove 2] =
      ⟨[none, none], 3⟩ ∧
    Map.contains_key (⟨[none, none], 3⟩ : Map Nat Nat) 3 = false ∧
    (⟨[none, none], 3⟩ : Map Nat Nat).pairs[0]? = some none ∧
    Map.insert (⟨[none, none], 3⟩ : Map Nat Nat) 3 30 =
      some (⟨[none, some (3, 30)], 3⟩, []) ∧
    (⟨[none, some (3, 30)], 3⟩ : Map Nat Nat).pairs[0]? = some none := by
  decide

/-- Claim C1 (amended): if no occupied slot's key equals `k` and at least
one tombstoned slot exists in the initialised region, insert(k, v)
writes the new pair into the last (highest-index) tombstoned slot
encountered during the linear scan, drops nothing, and leaves the
high-water mark unchanged. -/
theorem insert_reuses_last_tombstone [DecidableEq K] (m : Map K V)
    (k : K) (v : V) (hm : m.contains_key k = false)
    (ht : (none : Option (K × V)) ∈ m.pairs) :
    ∃ j, m.pairs[j]? = some none ∧
      (∀ i, j < i → m.pairs[i]? ≠ some none) ∧
      m.insert k v = some (⟨m.pairs.set j (some (k, v)), m.cap⟩, []) ∧
      (⟨m.pairs.set j (some (k, v)), m.cap⟩ : Map K V).next = m.next := by
  obtain ⟨j, hj⟩ : ∃ j, lastNone m.pairs = some j := by
    have := lastNone_isSome_of_mem m.pairs ht
    cases h : lastNone m.pairs
    · rw [h] at this; simp at this
    · exact ⟨_, rfl⟩
  have hjlt : j < m.pairs.length := lastNone_lt_length m.pairs j hj
  have hscan := insertScan_no_match_tomb k m.pairs j hm hj 0 m.pairs.length
  rw [Nat.zero_add] at hscan
  refine ⟨j, lastNone_get m.pairs j hj, lastNone_last m.pairs j hj, ?_, ?_⟩
  · exact insert_branch_set m k v j [] hscan (by omega)
  · simp [Map.next]

/-- Witness for the amended C1 at a concrete reachable state: capacity 3,
tombstones at slots 0 and 1, inserting the absent key 7. -/
theorem insert_reuses_last_tombstone_witness :
    ∃ j, (⟨[none, none], 3⟩ : Map Nat Nat).pairs[j]? = some none ∧
      (∀ i, j < i →
        (⟨[none, none], 3⟩ : Map Nat Nat).pairs[i]? ≠ some none) ∧
      Map.insert (⟨[none, none], 3⟩ : Map Nat Nat) 7 70 =
        some (⟨([none, none] : List (Option (Nat × Nat))).set j
          (some (7, 70)), 3⟩, []) ∧
      (⟨([none, none] : List (Option (Nat × Nat))).set j
          (some (7, 70)), 3⟩ : Map Nat Nat).next =
        (⟨[none, none], 3⟩ : Map Nat Nat).next :=
  insert_reuses_last_tombstone (⟨[none, none], 3⟩ : Map Nat Nat) 7 70
    (by decide) (by decide)

/-- Claim C2: an insert that needs a fresh slot (no occupied slot matches
the key, no tombstone exists) fails with the capacity-exhausted assertion
exactly when the high-water mark equals the capacity; and on a capacity-0
map every insert fails immediately. -/
theorem insert_capacity_exhausted [DecidableEq K] (m : Map K V)
    (k : K) (v : V) (hw : m.Wf) :
    (m.insert k v = none ↔
      m.contains_key k = false ∧ (none : Option (K × V)) ∉ m.pairs ∧
        m.next = m.cap) ∧
    (m.cap = 0 → m.insert k v = none) := by
  have hcap : m.pairs.length ≤ m.cap := hw.1
  constructor
  · constructor
    · intro hnone
      by_cases hc : m.contains_key k = true
      · exfalso
        have hlt := insertScan_match_lt k m.pairs hc 0 m.pairs.length
        rw [Nat.zero_add] at hlt
        obtain ⟨t0, d, hscan⟩ :
            ∃ t0 d, insertScan k m.pairs 0 m.pairs.length = (t0, d) :=
          ⟨_, _, rfl⟩
        rw [hscan] at hlt
        rw [insert_branch_set m k v t0 d hscan (by omega)] at hnone
        simp at hnone
      · have hc' : m.contains_key k = false := by
          simpa using hc
        cases hl : lastNone m.pairs with
        | some j =>
            exfalso
            have hjlt := lastNone_lt_length m.pairs j hl
            have hscan := insertScan_no_match_tomb k m.pairs j hc' hl 0
              m.pairs.length
            rw [Nat.zero_add] at hscan
            rw [insert_branch_set m k v j [] hscan (by omega)] at hnone
            simp at hnone
        | none =>
            have hscan := insertScan_no_match_no_tomb k m.pairs hc' hl 0
              m.pairs.length
            refine ⟨hc', (lastNone_eq_none_iff m.pairs).mp hl, ?_⟩
            by_cases hlt : m.pairs.length < m.cap
            · rw [insert_branch_append m k v [] hscan hlt] at hnone
              simp at hnone
            · show m.pairs.length = m.cap
              omega
    · rintro ⟨hc, hnt, hn⟩
      have hl : lastNone m.pairs = none := (lastNone_eq_none_iff m.pairs).mpr hnt
      have hscan := insertScan_no_match_no_tomb k m.pairs hc hl 0
        m.pairs.length
      exact insert_branch_fail m k v [] hscan
        (by simp only [Map.next] at hn; omega)
  · intro h0
    have hnil : m.pairs = [] := List.length_eq_zero.mp (by omega)
    have hc : m.contains_key k = false := by
      simp [Map.contains_key, hnil, containsGo]
    have hl : lastNone m.pairs = none := by simp [hnil, lastNone]
    have hscan := insertScan_no_match_no_tomb k m.pairs hc hl 0
      m.pairs.length
    exact insert_branch_fail m k v [] hscan (by omega)

/-- Witness for C2: a full capacity-1 map rejects a fresh key, and the
capacity-0 empty map rejects any insert. -/
theorem insert_capacity_exhausted_witness :
    (Map.insert (⟨[some (1, 10)], 1⟩ : Map Nat Nat) 2 20 = none ↔
      Map.contains_key (⟨[some (1, 10)], 1⟩ : Map Nat Nat) 2 = false ∧
        (none : Option (Nat × Nat)) ∉
          (⟨[some (1, 10)], 1⟩ : Map Nat Nat).pairs ∧
        (⟨[some (1, 10)], 1⟩ : Map Nat Nat).next =
          (⟨[some (1, 10)], 1⟩ : Map Nat Nat).cap) ∧
    ((⟨[some (1, 10)], 1⟩ : Map Nat Nat).cap = 0 →
      Map.insert (⟨[some (1, 10)], 1⟩ : Map Nat Nat) 2 20 = none) :=
  insert_capacity_exhausted (⟨[some (1, 10)], 1⟩ : Map Nat Nat) 2 20
    (by decide)

/-- Claim C3: inserting a key already occupied at slot `i` drops the old
pair, stores the new pair in the same slot `i`, leaves every other slot,
the length and the high-water mark unchanged, and afterwards get(k)
returns the new value. -/
theorem insert_duplicate_key [DecidableEq K] (m : Map K V) (k : K)
    (v v0 : V) (i : Nat) (hw : m.Wf)
    (hi : m.pairs[i]? = some (some (k, v0))) :
    ∃ m', m.insert k v = some (m', [(k, v0)]) ∧
      m'.len = m.len ∧
      m'.get k = some v ∧
      m'.pairs[i]? = some (some (k, v)) ∧
      (∀ j, j ≠ i → m'.pairs[j]? = m.pairs[j]?) ∧
      m'.next = m.next ∧ m'.cap = m.cap := by
  have hlt : i < m.pairs.length := (List.getElem?_eq_some.mp hi).1
  have hscan := insertScan_dup k v0 m.pairs i hw.2 hi 0 m.pairs.length
  rw [Nat.zero_add] at hscan
  refine ⟨⟨m.pairs.set i (some (k, v)), m.cap⟩, ?_, ?_, ?_, ?_, ?_, ?_, rfl⟩
  · exact insert_branch_set m k v i [(k, v0)] hscan (by omega)
  · exact countP_set_some m.pairs i (k, v0) (k, v) hi
  · exact getGo_set_dup m.pairs i k v v0 hw.2 hi
  · exact List.getElem?_set_self (by simpa using hlt)
  · intro j hj
    exact List.getElem?_set_ne (Ne.symm hj)
  · simp [Map.next]

section StateLemmas

variable [DecidableEq K]

theorem removeGo_length (k : K) (l : List (Option (K × V))) :
    (removeGo k l).1.length = l.length := by
  induction l with
  | nil => rfl
  | cons hd t ih =>
      cases hd with
      | none => simp [removeGo, ih]
      | some p => by_cases hp : p.1 = k <;> simp [removeGo, hp, ih]

theorem removeEntryGo_length (k : K) (l : List (Option (K × V))) :
    (removeEntryGo k l).1.length = l.length := by
  induction l with
  | nil => rfl
  | cons hd t ih =>
      cases hd with
      | none => simp [removeEntryGo, ih]
      | some p => by_cases hp : p.1 = k <;> simp [removeEntryGo, hp, ih]

theorem retainGo_length (f : K → V → Bool) (l : List (Option (K × V))) :
    (retainGo f l).1.length = l.length := by
  induction l with
  | nil => rfl
  | cons hd t ih =>
      cases hd with
      | none => simp [retainGo, ih]
      | some p => simp [retainGo, ih]

theorem insert_some_length (m m' : Map K V) (k : K) (v : V)
    (d : List (K × V)) (h : m.insert k v = some (m', d))
    (hle : m.pairs.length ≤ m.cap) :
    m'.pairs.length ≤ m.cap ∧ m'.cap = m.cap := by
  unfold Map.insert at h
  simp only at h
  split at h
  · split at h
    · rw [Option.some_inj] at h
      injection h with h1 h2
      subst h1
      refine ⟨?_, rfl⟩
      simp only [List.length_append, List.length_cons, List.length_nil]
      omega
    · exact absurd h (by simp)
  · rw [Option.some_inj] at h
    injection h with h1 h2
    subst h1
    refine ⟨?_, rfl⟩
    simpa [List.length_set] using hle

theorem applyOp_inv (m : Map K V) (op : Op K V)
    (h : m.pairs.length ≤ m.cap) :
    (applyOp m op).pairs.length ≤ (applyOp m op).cap ∧
      (applyOp m op).cap = m.cap := by
  cases op with
  | insert k v =>
      simp only [applyOp]
      cases hi : m.insert k v with
      | none => exact ⟨h, rfl⟩
      | some r =>
          obtain ⟨h1, h2⟩ :=
            insert_some_length m r.1 k v r.2 (by rw [hi]) h
          exact ⟨h2 ▸ h1, h2⟩
  | remove k =>
      refine ⟨?_, rfl⟩
      simpa [applyOp, Map.remove, removeGo_length] using h
  | removeEntry k =>
      refine ⟨?_, rfl⟩
      simpa [applyOp, Map.remove_entry, removeEntryGo_length] using h
  | clear =>
      exact ⟨by simp [applyOp, Map.clear], rfl⟩
  | retain f =>
      refine ⟨?_, rfl⟩
      simpa [applyOp, Map.retain, retainGo_length] using h

theorem applyOps_inv (m : Map K V) (ops : List (Op K V))
    (h : m.pairs.length ≤ m.cap) :
    (applyOps m ops).pairs.length ≤ (applyOps m ops).cap ∧
      (applyOps m ops).cap = m.cap := by
  induction ops generalizing m with
  | nil => exact ⟨h, rfl⟩
  | cons op rest ih =>
      simp only [applyOps, List.foldl_cons] at ih ⊢
      obtain ⟨h1, h2⟩ := applyOp_inv m op h
      obtain ⟨h3, h4⟩ := ih (applyOp m op) (h2 ▸ h1)
      exact ⟨h3, by rw [h4, h2]⟩

end StateLemmas

/-- Claim C4: starting from the empty map of any capacity, after any
sequence of insert / remove / remove_entry / clear / retain operations
the invariants hold: the high-water mark is between 0 and the capacity,
and len() is at most the capacity. -/
theorem invariants_all_sequences (K V : Type) [DecidableEq K] (cap : Nat)
    (ops : List (Op K V)) :
    0 ≤ (applyOps (Map.new K V cap) ops).next ∧
    (applyOps (Map.new K V cap) ops).next ≤ cap ∧
    (applyOps (Map.new K V cap) ops).len ≤ cap := by
  obtain ⟨h1, h2⟩ := applyOps_inv (Map.new K V cap) ops (by simp [Map.new])
  have h2' : (applyOps (Map.new K V cap) ops).cap = cap := h2
  have hlen := len_le_next (applyOps (Map.new K V cap) ops)
  simp only [Map.next] at hlen
  refine ⟨Nat.zero_le _, ?_, ?_⟩
  · simp only [Map.next]
    omega
  · omega

section RemoveLemmas

variable [DecidableEq K]

theorem removeGo_found (k : K) (v : V) (l : List (Option (K × V)))
    (hnd : ((l.filterMap id).map Prod.fst).Nodup)
    (hg : getGo k l = some v) :
    ∃ l', removeGo k l = (l', [(k, v)]) ∧
      removeEntryGo k l = (l', some (k, v)) ∧
      l'.length = l.length ∧
      ((l'.countP fun o => o.isSome) + 1 = l.countP fun o => o.isSome) ∧
      containsGo k l' = false := by
  induction l with
  | nil => simp [getGo] at hg
  | cons hd0 t ih =>
      cases hd0 with
      | none =>
          simp only [getGo] at hg
          simp only [List.filterMap_cons, id_eq] at hnd
          obtain ⟨l', h1, h2, h3, h4, h5⟩ := ih hnd hg
          exact ⟨none :: l', by simp [removeGo, h1],
            by simp [removeEntryGo, h2], by simp [h3],
            by simpa [List.countP_cons] using h4,
            by simp [containsGo, h5]⟩
      | some p =>
          obtain ⟨k', v'⟩ := p
          simp only [List.filterMap_cons, id_eq, List.map_cons,
            List.nodup_cons] at hnd
          by_cases hp : k' = k
          · subst hp
            simp [getGo] at hg
            subst hg
            refine ⟨none :: t, by simp [removeGo],
              by simp [removeEntryGo], by simp, by simp [List.countP_cons],
              ?_⟩
            simp only [containsGo]
            rw [containsGo_eq_false_iff]
            intro q hq he
            exact hnd.1 (List.mem_map.mpr ⟨q, hq, he⟩)
          · simp only [getGo, if_neg hp] at hg
            obtain ⟨l', h1, h2, h3, h4, h5⟩ := ih hnd.2 hg
            exact ⟨some (k', v') :: l', by simp [removeGo, hp, h1],
              by simp [removeEntryGo, hp, h2], by simp [h3],
              by simpa [List.countP_cons] using h4,
              by simp [containsGo, hp, h5]⟩

theorem removeGo_absent (k : K) (l : List (Option (K × V)))
    (hg : getGo k l = none) :
    removeGo k l = (l, []) ∧ removeEntryGo k l = (l, none) := by
  induction l with
  | nil => exact ⟨rfl, rfl⟩
  | cons hd0 t ih =>
      cases hd0 with
      | none =>
          simp only [getGo] at hg
          obtain ⟨h1, h2⟩ := ih hg
          exact ⟨by simp [removeGo, h1], by simp [removeEntryGo, h2]⟩
      | some p =>
          obtain ⟨k', v'⟩ := p
          by_cases hp : k' = k
          · simp [getGo, hp] at hg
          · simp only [getGo, if_neg hp] at hg
            obtain ⟨h1, h2⟩ := ih hg
            exact ⟨by simp [removeGo, hp, h1], by simp [removeEntryGo, hp, h2]⟩

end RemoveLemmas

/-- Claim C5: when key `k` is present with value `v`, remove(k) tombstones
its slot (afterwards contains_key is false, len decreases by one, the
high-water mark is unchanged) and remove_entry(k) reaches the same state
and returns the stored pair; when `k` is absent both are no-ops and
remove_entry returns None. -/
theorem remove_remove_entry_spec [DecidableEq K] (m : Map K V) (k : K)
    (hw : m.Wf) :
    (∀ v, m.get k = some v →
      ∃ m', m.remove k = (m', [(k, v)]) ∧
        m.remove_entry k = (m', some (k, v)) ∧
        m'.contains_key k = false ∧
        m'.len + 1 = m.len ∧ m'.next = m.next ∧ m'.cap = m.cap) ∧
    (m.get k = none →
      m.remove k = (m, []) ∧ m.remove_entry k = (m, none)) := by
  constructor
  · intro v hv
    obtain ⟨l', h1, h2, h3, h4, h5⟩ := removeGo_found k v m.pairs hw.2 hv
    refine ⟨⟨l', m.cap⟩, ?_, ?_, h5, h4, ?_, rfl⟩
    · simp [Map.remove, h1]
    · simp [Map.remove_entry, h2]
    · simp [Map.next, h3]
  · intro hv
    obtain ⟨h1, h2⟩ := removeGo_absent k m.pairs hv
    exact ⟨by simp [Map.remove, h1], by simp [Map.remove_entry, h2]⟩

/-- Witness for C5: removing the present key 2 from a capacity-3 map
holding (1, 10) and (2, 20). -/
theorem remove_remove_entry_spec_witness :
    (∀ v, Map.get (⟨[some (1, 10), some (2, 20)], 3⟩ : Map Nat Nat) 2 =
        some v →
      ∃ m', Map.remove (⟨[some (1, 10), some (2, 20)], 3⟩ : Map Nat Nat) 2 =
          (m', [(2, v)]) ∧
        Map.remove_entry (⟨[some (1, 10), some (2, 20)], 3⟩ : Map Nat Nat) 2 =
          (m', some (2, v)) ∧
        m'.contains_key 2 = false ∧
        m'.len + 1 = (⟨[some (1, 10), some (2, 20)], 3⟩ : Map Nat Nat).len ∧
        m'.next = (⟨[some (1, 10), some (2, 20)], 3⟩ : Map Nat Nat).next ∧
        m'.cap = (⟨[some (1, 10), some (2, 20)], 3⟩ : Map Nat Nat).cap) ∧
    (Map.get (⟨[some (1, 10), some (2, 20)], 3⟩ : Map Nat Nat) 2 = none →
      Map.remove (⟨[some (1, 10), some (2, 20)], 3⟩ : Map Nat Nat) 2 =
          (⟨[some (1, 10), some (2, 20)], 3⟩, []) ∧
        Map.remove_entry (⟨[some (1, 10), some (2, 20)], 3⟩ : Map Nat Nat) 2 =
          (⟨[some (1, 10), some (2, 20)], 3⟩, none)) :=
  remove_remove_entry_spec (⟨[some (1, 10), some (2, 20)], 3⟩ : Map Nat Nat) 2
    (by decide)

/-- Witness for C3: duplicate insert of key 1 into a capacity-2 map
holding (1, 10) at slot 0. -/
theorem insert_duplicate_key_witness :
    ∃ m', Map.insert (⟨[some (1, 10)], 2⟩ : Map Nat Nat) 1 11 =
        some (m', [(1, 10)]) ∧
      m'.len = (⟨[some (1, 10)], 2⟩ : Map Nat Nat).len ∧
      m'.get 1 = some 11 ∧
      m'.pairs[0]? = some (some (1, 11)) ∧
      (∀ j, j ≠ 0 →
        m'.pairs[j]? = (⟨[some (1, 10)], 2⟩ : Map Nat Nat).pairs[j]?) ∧
      m'.next = (⟨[some (1, 10)], 2⟩ : Map Nat Nat).next ∧
      m'.cap = (⟨[some (1, 10)], 2⟩ : Map Nat Nat).cap :=
  insert_duplicate_key (⟨[some (1, 10)], 2⟩ : Map Nat Nat) 1 11 10 0
    (by decide) (by decide)


section RetainLemmas

theorem retainGo_fst (f : K → V → Bool) (l : List (Option (K × V))) :
    (retainGo f l).1 = l.map (retainSlot f) := by
  induction l with
  | nil => rfl
  | cons hd t ih =>
      cases hd with
      | none => simp [retainGo, retainSlot, ih]
      | some p =>
          obtain ⟨k, v⟩ := p
          simp [retainGo, retainSlot, ih]

theorem retainGo_calls (f : K → V → Bool) (l : List (Option (K × V))) :
    (retainGo f l).2.1 = l.filterMap id := by
  induction l with
  | nil => rfl
  | cons hd t ih =>
      cases hd with
      | none => simp [retainGo, List.filterMap_cons, ih]
      | some p =>
          obtain ⟨k, v⟩ := p
          simp [retainGo, List.filterMap_cons, ih]

theorem retainGo_dropped (f : K → V → Bool) (l : List (Option (K × V))) :
    (retainGo f l).2.2 = [] := by
  induction l with
  | nil => rfl
  | cons hd t ih =>
      cases hd with
      | none => simp [retainGo, ih]
      | some p =>
          obtain ⟨k, v⟩ := p
          simp [retainGo, ih]

theorem filterMap_retainSlot (f : K → V → Bool)
    (l : List (Option (K × V))) :
    (l.map (retainSlot f)).filterMap id =
      (l.filterMap id).filter fun p => f p.1 p.2 := by
  induction l with
  | nil => rfl
  | cons hd t ih =>
      cases hd with
      | none => simp [retainSlot, List.filterMap_cons, ih]
      | some p =>
          obtain ⟨k, v⟩ := p
          by_cases hf : f k v <;>
            simp [retainSlot, List.filterMap_cons, List.filter_cons, hf, ih]

end RetainLemmas

/-- Claim C7: retain(f) calls f exactly once per slot occupied at the
start, in index-ascending order (the call list equals the occupied
entries in slot order); afterwards slot i holds its old entry if it
passed the predicate, a tombstone if it failed, and tombstones stay
tombstones — so the occupied entries are exactly the original entries
satisfying f, at their original slot indices — and the high-water mark
is unchanged. -/
theorem retain_spec (m : Map K V) (f : K → V → Bool) :
    (m.retain f).2.1 = m.occupiedEntries ∧
    (∀ i : Nat, (m.retain f).1.pairs[i]? =
      (m.pairs[i]?).map (retainSlot f)) ∧
    (m.retain f).1.occupiedEntries =
      m.occupiedEntries.filter (fun p => f p.1 p.2) ∧
    (m.retain f).1.next = m.next := by
  refine ⟨retainGo_calls f m.pairs, ?_, ?_, ?_⟩
  · intro i
    show ((retainGo f m.pairs).1)[i]? = (m.pairs[i]?).map (retainSlot f)
    rw [retainGo_fst, List.getElem?_map]
  · show ((retainGo f m.pairs).1).filterMap id =
      (m.pairs.filterMap id).filter fun p => f p.1 p.2
    rw [retainGo_fst, filterMap_retainSlot]
  · show ((retainGo f m.pairs).1).length = m.pairs.length
    rw [retainGo_fst, List.length_map]

/-- Claim C8, refutation at a concrete input: retain on a map holding
(1, 10) and (2, 20), keeping only key 1, discards the occupied entry
(2, 20) — it is no longer among the occupied entries — yet the
operation's dropped-pairs list is empty, because the tombstoning write
at src/map.rs:182 is a `MaybeUninit::write` that never drops the old
pair.  The discarded value is leaked instead of being released exactly
once. -/
theorem retain_leaks_discarded_value :
    (Map.retain (⟨[some (1, 10), some (2, 20)], 2⟩ : Map Nat Nat)
        (fun k _ => k == 1)).1.occupiedEntries = [(1, 10)] ∧
    (Map.retain (⟨[some (1, 10), some (2, 20)], 2⟩ : Map Nat Nat)
        (fun k _ => k == 1)).2.2 = [] ∧
    (⟨[some (1, 10), some (2, 20)], 2⟩ : Map Nat Nat).occupiedEntries =
      [(1, 10), (2, 20)] := by
  decide

section RoundTripLemmas

variable [DecidableEq K]

theorem insertAll_fresh (cap : Nat) :
    ∀ (l acc : List (K × V)),
      ((acc ++ l).map Prod.fst).Nodup →
      acc.length + l.length ≤ cap →
      insertAll ⟨acc.map some, cap⟩ l = some ⟨(acc ++ l).map some, cap⟩ := by
  intro l
  induction l with
  | nil =>
      intro acc _ _
      rw [List.append_nil]
      rfl
  | cons p rest ih =>
      obtain ⟨k, v⟩ := p
      intro acc hnd hlen
      have hdisj : ∀ q ∈ acc, q.1 ≠ k := by
        intro q hq he
        rw [List.map_append] at hnd
        obtain ⟨-, -, hdj⟩ := List.nodup_append.mp hnd
        exact hdj (List.mem_map.mpr ⟨q, hq, he⟩) (by simp)
      have hqe : (acc.map some : List (Option (K × V))).filterMap id = acc := by
        rw [List.filterMap_map]
        exact List.filterMap_some acc
      have hc : containsGo k (acc.map some) = false := by
        rw [containsGo_eq_false_iff]
        intro q hq
        rw [hqe] at hq
        exact hdisj q hq
      have hlast : lastNone ((acc.map some : List (Option (K × V)))) = none := by
        rw [lastNone_eq_none_iff]
        simp
      have hscan := insertScan_no_match_no_tomb k (acc.map some) hc hlast 0
        (acc.map some).length
      have hacc : (acc.map some : List (Option (K × V))).length = acc.length :=
        List.length_map acc some
      have hins :
          Map.insert (⟨acc.map some, cap⟩ : Map K V) k v =
            some (⟨acc.map some ++ [some (k, v)], cap⟩, []) :=
        insert_branch_append _ k v [] hscan
          (by show (acc.map some : List (Option (K × V))).length < cap
              rw [List.length_map]
              simp only [List.length_cons] at hlen
              omega)
      simp only [insertAll, hins]
      have hmap : (acc.map some : List (Option (K × V))) ++ [some (k, v)] =
          (acc ++ [(k, v)]).map some := by
        rw [List.map_append]
        rfl
      rw [hmap]
      have happ : (acc ++ [(k, v)]) ++ rest = acc ++ ((k, v) :: rest) := by
        rw [List.append_assoc]
        rfl
      have := ih (acc ++ [(k, v)])
        (by rwa [happ])
        (by simp only [List.length_append, List.length_cons,
          List.length_nil] at hlen ⊢; omega)
      rw [this, happ]

end RoundTripLemmas

/-- Claim C9: consuming a well-formed map and re-inserting every yielded
pair into a fresh container of the same capacity succeeds (no
capacity-exhausted failure) and reproduces the same key/value pairs. -/
theorem consume_reinsert_roundtrip [DecidableEq K] (m : Map K V)
    (hw : m.Wf) :
    ∃ m', insertAll (Map.new K V m.cap) m.intoIterToList = some m' ∧
      m'.occupiedEntries = m.occupiedEntries ∧ m'.cap = m.cap := by
  have h1 : m.intoIterToList = m.occupiedEntries := intoIterToList_eq m
  have hlen : m.occupiedEntries.length ≤ m.cap := by
    have h2 := List.length_filterMap_le id m.pairs
    have h3 := hw.1
    show (m.pairs.filterMap id).length ≤ m.cap
    omega
  have hall := insertAll_fresh m.cap m.occupiedEntries []
    (by simpa using hw.2) (by simpa using hlen)
  refine ⟨⟨m.occupiedEntries.map some, m.cap⟩, ?_, ?_, rfl⟩
  · rw [h1]
    simpa [Map.new] using hall
  · show (m.occupiedEntries.map some).filterMap id = m.occupiedEntries
    rw [List.filterMap_map]
    exact List.filterMap_some _

/-- Witness for C9 at a concrete state with a tombstone: capacity 3,
entries (1, 10) and (3, 30), tombstone between them. -/
theorem consume_reinsert_roundtrip_witness :
    ∃ m', insertAll
        (Map.new Nat Nat (⟨[some (1, 10), none, some (3, 30)], 3⟩ :
          Map Nat Nat).cap)
        (Map.intoIterToList
          (⟨[some (1, 10), none, some (3, 30)], 3⟩ : Map Nat Nat)) =
        some m' ∧
      m'.occupiedEntries =
        (⟨[some (1, 10), none, some (3, 30)], 3⟩ :
          Map Nat Nat).occupiedEntries ∧
      m'.cap = (⟨[some (1, 10), none, some (3, 30)], 3⟩ : Map Nat Nat).cap :=
  consume_reinsert_roundtrip
    (⟨[some (1, 10), none, some (3, 30)], 3⟩ : Map Nat Nat) (by decide)

/-- Claim C10: the user-facing (Display) rendering delegates to and is
identical to the debug (Debug) rendering; both produce an opening brace,
the occupied entries rendered "key: value" in ascending slot order
joined by ", ", and a closing brace; on the map built by inserting
("one", 42) then ("two", 16) into an empty capacity-10 map the result is
"\x7bone: 42, two: 16\x7d". -/
theorem display_debug_render :
    (∀ (A B : Type) (fK : A → String) (fV : B → String) (m : Map A B),
        m.displayFmt fK fV = m.debugFmt fK fV) ∧
    (∀ (A B : Type) (fK : A → String) (fV : B → String) (m : Map A B),
        m.debugFmt fK fV = "\x7b" ++ String.intercalate ", "
          (m.occupiedEntries.map fun p => fK p.1 ++ ": " ++ fV p.2) ++
          "\x7d") ∧
    Map.displayFmt (fun s => s) (fun n : Nat => toString n)
        (applyOps (Map.new String Nat 10)
          [Op.insert "one" 42, Op.insert "two" 16]) =
      "\x7bone: 42, two: 16\x7d" := by
  refine ⟨fun A B fK fV m => rfl, fun A B fK fV m => ?_, by decide⟩
  simp only [Map.debugFmt]
  rw [iterToList_eq]

end Micromap
